import Mathlib

/-!
Verification of the core of `petra`, a filesystem-backed reverse HTTP cache
(`src/index.js`).  Each subsystem of the source is shallowly embedded as an
executable Lean definition: the `Cache-Control` TTL parser, the single-flight
`FileLocker`, the filesystem probe, the upstream fetcher's error taxonomy and
finalization arithmetic, the fetch orchestrator's lock/callback ordering, the
failure-cleanup paths, `purge`, and the upstream event handling.  Strings are
modelled as `List Char`, wall-clock instants as milliseconds (`Nat`), and the
event-driven parts as explicit state machines or traces.
-/

/-! ## TTL parser (`ttlFromCacheControlHeader`, src/index.js lines 12-30)

The JS function checks that its argument is a string containing neither
`no-cache` nor `private`, then applies the regexes `/s-maxage=([0-9]+)/` and
`/max-age=([0-9]+)/` in that order, returning the captured integer of the
first (leftmost) match, defaulting to 0.  A non-string argument is modelled
as `none`.  `matchNumAt pat s` models matching the literal `pat` followed by
a greedy nonempty digit run at the head of `s`; `findNum` models the regex
engine's leftmost-match scan. -/

def takeDigits : List Char → List Char
  | [] => []
  | c :: rest => if c.isDigit then c :: takeDigits rest else []

def digitsToNat (l : List Char) : Nat :=
  l.foldl (fun a c => 10 * a + (c.toNat - 48)) 0

def matchNumAt (pat s : List Char) : Option Nat :=
  if pat.isPrefixOf s then
    match takeDigits (s.drop pat.length) with
    | [] => none
    | d :: ds => some (digitsToNat (d :: ds))
  else none

def findNum (pat : List Char) : List Char → Option Nat
  | [] => none
  | c :: rest =>
    match matchNumAt pat (c :: rest) with
    | some n => some n
    | none => findNum pat rest

def containsSub (pat : List Char) : List Char → Bool
  | [] => pat.isEmpty
  | c :: rest => pat.isPrefixOf (c :: rest) || containsSub pat rest

def noCachePat : List Char := "no-cache".toList

def privatePat : List Char := "private".toList

def smaxagePat : List Char := "s-maxage=".toList

def maxagePat : List Char := "max-age=".toList

def ttlFromCacheControlHeader (h : Option (List Char)) : Nat :=
  match h with
  | none => 0
  | some s =>
    if containsSub noCachePat s || containsSub privatePat s then 0
    else
      match findNum smaxagePat s with
      | some n => n
      | none =>
        match findNum maxagePat s with
        | some n => n
        | none => 0

/-- Spec-side notion: the value `n` is captured by the leftmost position of
`s` at which the directive literal `pat` is followed by at least one digit. -/
def FirstDirective (pat s : List Char) (n : Nat) : Prop :=
  ∃ i, matchNumAt pat (s.drop i) = some n ∧ ∀ j < i, matchNumAt pat (s.drop j) = none

/-- Spec-side notion: no position of `s` matches the directive `pat`. -/
def NoDirective (pat s : List Char) : Prop :=
  ∀ i, matchNumAt pat (s.drop i) = none

/-! ## Upstream finalization arithmetic (src/index.js lines 242-254)

On a successful upstream fetch the code computes
`ttl = Math.max(this.minimumTtl, ttlFromCacheControlHeader(...))`, sets
`atime = new Date()` and `mtime = new Date(atime.getTime() + ttl * 1000)`,
stamps them on the file with `fs.utimes` and delivers the same pair to the
caller. -/

def finalizeStamp (nowMs : Nat) (minimumTtl : Nat) (cacheControl : Option (List Char)) :
    Nat × Nat :=
  let ttl := max minimumTtl (ttlFromCacheControlHeader cacheControl)
  (nowMs, nowMs + ttl * 1000)

/-! ## Filesystem probe (`_fetchFromFilesystem`, src/index.js lines 171-193)

The probe stats the cache file.  `StatOutcome` is the stat callback's input;
`ProbeResult` records what the probe reports to `fetch` (the probe never
surfaces an error: every branch calls `done(null)` or `done(null, atime,
mtime)`).  The `ENOENT` branch attempts `fs.mkdir` of the shard directory and
logs only when the mkdir error is not `EEXIST`. -/

inductive StatOutcome
  | statErr (code : String)
  | statOk (isFile : Bool) (size : Nat) (atimeMs mtimeMs : Nat)
deriving DecidableEq

inductive ProbeResult
  | hit (atimeMs mtimeMs : Nat)
  | missMkdir (logged : Bool)
  | missStatErr
  | missStale
deriving DecidableEq

def fetchFromFilesystem (st : StatOutcome) (mkdirErr : Option String) (nowMs : Nat) :
    ProbeResult :=
  match st with
  | .statErr c =>
    if c = "ENOENT" then
      .missMkdir (match mkdirErr with
        | some e => decide (e ≠ "EEXIST")
        | none => false)
    else .missStatErr
  | .statOk isFile size a m =>
    if isFile = true ∧ 0 < size ∧ nowMs < m then .hit a m else .missStale

/-! ## Upstream error taxonomy (src/index.js lines 195-233)

`errorWithCode` builds an error carrying one numeric code; `onError` prefixes
the message with `Upstream {url} failed: ` (after best-effort unlinking the
`.part` file) before delivering it.  The transport branch maps
`{ECONNREFUSED, ETIMEDOUT, ESOCKETTIMEDOUT}` to 504 and everything else
(including an absent code) to 502; a non-200 status aborts with the status as
code; a `Content-Type` outside a non-empty `mediaTypes` aborts with 415; the
response timer aborts with 504. -/

structure UpErr where
  code : Nat
  msg : String
deriving DecidableEq

def wrapMsg (url msg : String) : String :=
  "Upstream " ++ url ++ " failed: " ++ msg

def transportCode (c : Option String) : Nat :=
  match c with
  | some s =>
    if s = "ECONNREFUSED" ∨ s = "ETIMEDOUT" ∨ s = "ESOCKETTIMEDOUT" then 504 else 502
  | none => 502

def transportErr (url : String) (c : Option String) (msg : String) : UpErr :=
  ⟨transportCode c, wrapMsg url msg⟩

/-- JS renders an absent `content-type` header as the string `undefined`
inside the template literal. -/
def renderCt : Option String → String
  | some s => s
  | none => "undefined"

/-- `mediaTypes.length > 0 && !mediaTypes.includes(res.headers['content-type'])`
is the rejection test; an absent header is never a member of a string list. -/
def ctypeAllowed (mediaTypes : List String) (ct : Option String) : Bool :=
  mediaTypes.isEmpty ||
    (match ct with
     | some s => mediaTypes.contains s
     | none => false)

/-- The validation the response callback performs on the headers, in source
order: status first, then media type; `none` means validation passed. -/
def headersCheck (mediaTypes : List String) (url : String) (status : Nat)
    (ct : Option String) : Option UpErr :=
  if status ≠ 200 then
    some ⟨status, wrapMsg url ("status code " ++ toString status)⟩
  else if ctypeAllowed mediaTypes ct = false then
    some ⟨415, wrapMsg url ("unsupported media-type " ++ renderCt ct)⟩
  else none

def timeoutErr (url : String) (responseTimeout : Nat) : UpErr :=
  ⟨504, wrapMsg url ("response timeout of " ++ toString responseTimeout ++ "ms")⟩

/-! ## FileLocker (src/index.js lines 32-64)

`lockedFiles` is a `Map` from file path to `{lastUpdated, onRelease}`; the
map is modelled pointwise as a function into `Option LockEntry`.  `lock`
either enqueues the `proceed` callback or creates the entry and runs
`proceed` at once; `unlock` dequeues the FIFO head (transferring ownership)
or deletes the entry.  Callbacks are identified by `Nat` ids; the second
component of each operation is the id of the callback invoked now, if any. -/

structure LockEntry where
  lastUpdated : Nat
  onRelease : List Nat
deriving DecidableEq

def LockTable : Type := String → Option LockEntry

def tset (t : LockTable) (k : String) (v : Option LockEntry) : LockTable :=
  fun x => if x = k then v else t x

def FileLocker.lock (t : LockTable) (file : String) (now : Nat) (pid : Nat) :
    LockTable × Option Nat :=
  match t file with
  | some e => (tset t file (some { e with onRelease := e.onRelease ++ [pid] }), none)
  | none => (tset t file (some { lastUpdated := now, onRelease := [] }), some pid)

def FileLocker.unlock (t : LockTable) (file : String) (now : Nat) :
    LockTable × Option Nat :=
  match t file with
  | none => (t, none)
  | some e =>
    match e.onRelease with
    | p :: rest => (tset t file (some { lastUpdated := now, onRelease := rest }), some p)
    | [] => (tset t file none, none)

/-- One call in a `lock(k)`/`unlock(k)` call sequence for a fixed key. -/
inductive LockOp
  | lockOp (pid : Nat)
  | unlockOp
deriving DecidableEq

def countUnlocks (ops : List LockOp) : Nat :=
  ops.countP (fun o => o = LockOp.unlockOp)

/-- Bookkeeping while replaying a call sequence: the table, how many queued
or immediate `proceed` callbacks have been invoked (`started`), how many
`unlock` calls found an entry (`hits`) and how many found none
(`spurious`). -/
structure ExecSt where
  table : LockTable
  started : Nat
  hits : Nat
  spurious : Nat

def execOp (k : String) (s : ExecSt) : LockOp → ExecSt
  | .lockOp pid =>
    let r := FileLocker.lock s.table k 0 pid
    { s with table := r.1, started := s.started + (if r.2.isSome then 1 else 0) }
  | .unlockOp =>
    let r := FileLocker.unlock s.table k 0
    { table := r.1,
      started := s.started + (if r.2.isSome then 1 else 0),
      hits := s.hits + (if (s.table k).isSome then 1 else 0),
      spurious := s.spurious + (if (s.table k).isSome then 0 else 1) }

def execOps (k : String) (ops : List LockOp) : ExecSt :=
  ops.foldl (execOp k) { table := fun _ => none, started := 0, hits := 0, spurious := 0 }

/-! ## Fetch orchestration under the lock (`Petra.prototype.fetch`,
src/index.js lines 135-169)

`fetch` locks the cache filename, probes the filesystem under the lock, and
on a miss runs the upstream fetch still under the lock; the lock is released
when the outcome is delivered.  For a single cache key, `n` concurrent
`fetch` calls are modelled as processes `Fin n`, each in a `Phase`;
`FetchSt` holds the key's lock (holder plus FIFO waiter queue, as in
`FileLocker`), whether the canonical file is a fresh hit, and every process's
phase.  `finish` is the shared unlock-and-hand-over performed when a holder
delivers its outcome. -/

inductive Phase
  | idle
  | waiting
  | probing
  | fetching
  | done
deriving DecidableEq

structure FetchSt (n : Nat) where
  holder : Option (Fin n)
  queue : List (Fin n)
  fresh : Bool
  ph : Fin n → Phase

def updPh {n : Nat} (ph : Fin n → Phase) (i : Fin n) (p : Phase) : Fin n → Phase :=
  fun j => if j = i then p else ph j

def finish {n : Nat} (s : FetchSt n) (i : Fin n) (fr : Bool) : FetchSt n :=
  match s.queue with
  | [] => { holder := none, queue := [], fresh := fr, ph := updPh s.ph i Phase.done }
  | w :: rest =>
    { holder := some w, queue := rest, fresh := fr,
      ph := updPh (updPh s.ph i Phase.done) w Phase.probing }

inductive FetchStep {n : Nat} : FetchSt n → FetchSt n → Prop
  | lockAcquire (s : FetchSt n) (i : Fin n) :
      s.ph i = Phase.idle → s.holder = none →
      FetchStep s { holder := some i, queue := s.queue, fresh := s.fresh,
                    ph := updPh s.ph i Phase.probing }
  | lockEnqueue (s : FetchSt n) (i h : Fin n) :
      s.ph i = Phase.idle → s.holder = some h →
      FetchStep s { holder := s.holder, queue := s.queue ++ [i], fresh := s.fresh,
                    ph := updPh s.ph i Phase.waiting }
  | probeHit (s : FetchSt n) (i : Fin n) :
      s.holder = some i → s.ph i = Phase.probing → s.fresh = true →
      FetchStep s (finish s i s.fresh)
  | probeMiss (s : FetchSt n) (i : Fin n) :
      s.holder = some i → s.ph i = Phase.probing → s.fresh = false →
      FetchStep s { holder := s.holder, queue := s.queue, fresh := s.fresh,
                    ph := updPh s.ph i Phase.fetching }
  | upstreamOk (s : FetchSt n) (i : Fin n) :
      s.holder = some i → s.ph i = Phase.fetching →
      FetchStep s (finish s i true)
  | upstreamFail (s : FetchSt n) (i : Fin n) :
      s.holder = some i → s.ph i = Phase.fetching →
      FetchStep s (finish s i s.fresh)

def initSt (n : Nat) (fresh0 : Bool) : FetchSt n :=
  { holder := none, queue := [], fresh := fresh0, ph := fun _ => Phase.idle }

/-! ## Failure cleanup (`onError` and `_fetchFromUpstream`,
src/index.js lines 195-262)

The cache directory state for one key: the canonical file and its `.part`
sibling, each `none` or `some contentId`.  Every failure path of
`_fetchFromUpstream` funnels through `onError`, which unlinks the `.part`
file and then surfaces the error.  `runFailedFetch fs fresh k` is the
directory state after a fetch of fresh content `fresh` fails at point `k`,
starting from `fs`: the transport/status/media-type failures happen before
`createWriteStream`; the response timeout and rename failures happen after
the `.part` file was written; a `utimes` failure happens after the `.part`
file was already renamed onto the canonical path. -/

structure CacheFs where
  canonical : Option Nat
  partFile : Option Nat
deriving DecidableEq

inductive FailKind
  | transportFail
  | statusFail
  | mediaTypeFail
  | timeoutFail
  | renameFail
  | utimesFail
deriving DecidableEq

/-- `onError`: `fs.unlink(partialContentFilename, ...)` then deliver. -/
def onErrorFs (fs : CacheFs) : CacheFs :=
  { fs with partFile := none }

def runFailedFetch (fs : CacheFs) (fresh : Nat) : FailKind → CacheFs
  | .transportFail => onErrorFs fs
  | .statusFail => onErrorFs fs
  | .mediaTypeFail => onErrorFs fs
  | .timeoutFail => onErrorFs { fs with partFile := some fresh }
  | .renameFail => onErrorFs { fs with partFile := some fresh }
  | .utimesFail => onErrorFs { canonical := some fresh, partFile := none }

/-! ## Purge (`Petra.prototype.purge`, src/index.js lines 265-277)

`purge` locks the filename, unlinks it with the error ignored, unlocks, and
calls `done()` with no arguments.  The sequential (lock immediately free)
case is modelled; the result carries the final lock table, the final
directory state and how many times `done` ran. -/

def purgeRun (t : LockTable) (file : String) (fs : CacheFs) :
    LockTable × CacheFs × Nat :=
  match FileLocker.lock t file 0 0 with
  | (t1, some _) =>
    ((FileLocker.unlock t1 file 0).1, { fs with canonical := none }, 1)
  | (t1, none) => (t1, fs, 0)

/-! ## Upstream response event handling (src/index.js lines 195-262)

The response callback of `get` validates the headers, arms the response
timer, pipes the body to the `.part` file and attaches handlers; afterwards
the environment delivers events: the timer firing, the response emitting
`error` or `end`, the write stream closing (leading to rename/utimes and one
of three `done` calls).  `upStep` is the handler dispatch exactly as wired in
the source: nothing deduplicates calls of the fetcher's `done`, so
`doneCalls` counts every delivery. -/

inductive UpEvt
  | gotErr (code : Option String)
  | gotRes (status : Nat) (ct : Option String)
  | timerFire
  | resError
  | resEnd
  | fileClose (renameOk utimesOk : Bool)
deriving DecidableEq

structure UpState where
  responded : Bool
  timerArmed : Bool
  streaming : Bool
  doneCalls : Nat
deriving DecidableEq

def upStep (mediaTypes : List String) (responseTimeout : Nat) (s : UpState) :
    UpEvt → UpState
  | .gotErr _ =>
    if s.responded then s
    else { s with responded := true, doneCalls := s.doneCalls + 1 }
  | .gotRes status ct =>
    if s.responded then s
    else if status ≠ 200 then { s with responded := true, doneCalls := s.doneCalls + 1 }
    else if ctypeAllowed mediaTypes ct = false then
      { s with responded := true, doneCalls := s.doneCalls + 1 }
    else
      { s with responded := true, streaming := true,
               timerArmed := decide (0 < responseTimeout) }
  | .timerFire =>
    if s.timerArmed then { s with timerArmed := false, doneCalls := s.doneCalls + 1 }
    else s
  | .resError =>
    if s.streaming then { s with timerArmed := false, doneCalls := s.doneCalls + 1 }
    else s
  | .resEnd =>
    if s.streaming then { s with timerArmed := false } else s
  | .fileClose _ _ =>
    if s.streaming then { s with doneCalls := s.doneCalls + 1 } else s

def runUpstream (mediaTypes : List String) (responseTimeout : Nat)
    (evs : List UpEvt) : UpState :=
  evs.foldl (upStep mediaTypes responseTimeout)
    { responded := false, timerArmed := false, streaming := false, doneCalls := 0 }

/-! ## Lock release vs. caller callback ordering (src/index.js lines 143-166)

The three outcome branches of `fetch` are straight-line code; their traces
are transcribed with `unlock` expanded to the synchronous hand-over to the
next FIFO waiter when one is queued.  On a filesystem hit:
`locker.unlock(filename); done(null, ...)`.  On upstream success:
`locker.unlock(filename); done(null, ...)`.  On upstream error: `done(err);
locker.unlock(filename)`. -/

inductive FetchEvt
  | unlockEvt
  | waiterStartEvt
  | doneOkEvt
  | doneErrEvt
deriving DecidableEq

def unlockTrace (hasWaiter : Bool) : List FetchEvt :=
  if hasWaiter then [FetchEvt.unlockEvt, FetchEvt.waiterStartEvt]
  else [FetchEvt.unlockEvt]

def fsHitTrace (hasWaiter : Bool) : List FetchEvt :=
  unlockTrace hasWaiter ++ [FetchEvt.doneOkEvt]

def upOkTrace (hasWaiter : Bool) : List FetchEvt :=
  unlockTrace hasWaiter ++ [FetchEvt.doneOkEvt]

def upErrTrace (hasWaiter : Bool) : List FetchEvt :=
  FetchEvt.doneErrEvt :: unlockTrace hasWaiter

/-! ## Proof-support definitions -/

/-- Index of the first occurrence of an event in a trace (length if absent). -/
def evtIdx (e : FetchEvt) : List FetchEvt → Nat
  | [] => 0
  | x :: rest => if x = e then 0 else evtIdx e rest + 1

/-- Replay invariant for the `FileLocker` call sequences: while an entry for
the key exists exactly one started `proceed` has not yet been matched by an
effective `unlock`; with no entry the counts agree. -/
def LockInv (k : String) (s : ExecSt) : Prop :=
  match s.table k with
  | none => s.started = s.hits
  | some _ => s.started = s.hits + 1

/-- A concrete two-process state: process 0 has acquired the lock and probed
(reachable from the initial state by one `lockAcquire` step). -/
def exampleFetchMid : FetchSt 2 :=
  { holder := some 0, queue := [], fresh := false,
    ph := updPh (fun _ => Phase.idle) 0 Phase.probing }

/-- A concrete two-process state: process 0 missed the probe and is fetching
upstream (reachable from `exampleFetchMid` by one `probeMiss` step). -/
def exampleFetchSt : FetchSt 2 :=
  { holder := some 0, queue := [], fresh := false,
    ph := updPh (updPh (fun _ => Phase.idle) 0 Phase.probing) 0 Phase.fetching }

/-- Invariant of the fetch orchestration model: probing or fetching processes
hold the lock, queued processes are waiting and queued once, and the holder
is probing or fetching. -/
def FetchInv {n : Nat} (s : FetchSt n) : Prop :=
  (∀ i, s.ph i = Phase.probing ∨ s.ph i = Phase.fetching → s.holder = some i) ∧
  (∀ i, i ∈ s.queue → s.ph i = Phase.waiting) ∧
  s.queue.Nodup ∧
  (∀ i, s.holder = some i → s.ph i = Phase.probing ∨ s.ph i = Phase.fetching)

/-! ## Basic lemmas -/

theorem updPh_self {n : Nat} (ph : Fin n → Phase) (i : Fin n) (p : Phase) :
    updPh ph i p i = p := by
  simp [updPh]

theorem updPh_ne {n : Nat} (ph : Fin n → Phase) (i j : Fin n) (p : Phase)
    (h : j ≠ i) : updPh ph i p j = ph j := by
  simp [updPh, h]

/-! ## Sanity evaluations of the embedded definitions on concrete inputs -/

theorem ttl_eval_smaxage :
    ttlFromCacheControlHeader (some "public, s-maxage=31, max-age=5".toList) = 31 := by
  decide

theorem ttl_eval_maxage :
    ttlFromCacheControlHeader (some "max-age=2".toList) = 2 := by
  decide

theorem ttl_eval_private :
    ttlFromCacheControlHeader (some "private, max-age=60".toList) = 0 := by
  decide

theorem ttl_eval_unknown :
    ttlFromCacheControlHeader (some "unknown".toList) = 0 := by
  decide

theorem upstream_eval_success_single_callback :
    (runUpstream [] 100
      [UpEvt.gotRes 200 none, UpEvt.resEnd, UpEvt.fileClose true true]).doneCalls = 1 := by
  decide

theorem upstream_eval_status_single_callback :
    (runUpstream [] 100 [UpEvt.gotRes 404 none]).doneCalls = 1 := by
  decide

/-- Claim C4: for every successful fetch that reaches the upstream, the
timestamps delivered to the caller and stamped on the file satisfy
`mtime - atime = max(minimumTtl, ttlFromCacheControlHeader(cache-control))`
seconds (here in milliseconds, as the source multiplies the TTL by 1000),
with `atime` set to the completion instant. -/
theorem upstream_stamp_ttl :
    ∀ (nowMs minimumTtl : Nat) (cc : Option (List Char)),
      (finalizeStamp nowMs minimumTtl cc).1 = nowMs ∧
      (finalizeStamp nowMs minimumTtl cc).2 - (finalizeStamp nowMs minimumTtl cc).1 =
        max minimumTtl (ttlFromCacheControlHeader cc) * 1000 := by
  intro nowMs minimumTtl cc
  refine ⟨rfl, ?_⟩
  simp [finalizeStamp]

/-- Claim C7, counterexample: on a `utimes` failure the `.part` file has
already been renamed onto the canonical path, so after the error is delivered
a file exists at the canonical path even though none pre-existed the fetch. -/
theorem failed_fetch_cleanup_counterexample :
    (runFailedFetch { canonical := none, partFile := none } 7
      FailKind.utimesFail).canonical = some 7 := rfl

/-- Claim C7, amended: on every failure path the `.part` file is unlinked
(best-effort, modelled as succeeding) before the error is surfaced, and on
every failure path except a `utimes` failure the canonical path is exactly as
it was before the fetch (pre-existing files undisturbed, no new file); on a
`utimes` failure the rename has already succeeded, so the freshly fetched
content remains at the canonical path. -/
theorem failed_fetch_cleanup_amended :
    (∀ fs fresh k, (runFailedFetch fs fresh k).partFile = none) ∧
    (∀ fs fresh k, k ≠ FailKind.utimesFail →
      (runFailedFetch fs fresh k).canonical = fs.canonical) ∧
    (∀ fs fresh, (runFailedFetch fs fresh FailKind.utimesFail).canonical = some fresh) := by
  refine ⟨?_, ?_, ?_⟩
  · intro fs fresh k
    cases k <;> rfl
  · intro fs fresh k hk
    cases k <;> first | rfl | exact absurd rfl hk
  · intro fs fresh
    rfl

/-- Claim C8: `purge` (with the per-key lock free) unconditionally succeeds:
it invokes `done` exactly once with no arguments, afterwards no file exists
at the canonical path, the lock entry it created is gone again, and a
repeated `purge` behaves identically (idempotence). -/
theorem purge_always_succeeds :
    ∀ (t : LockTable) (file : String) (fs : CacheFs), t file = none →
      (purgeRun t file fs).2.2 = 1 ∧
      (purgeRun t file fs).2.1.canonical = none ∧
      (purgeRun t file fs).1 file = none ∧
      (purgeRun (purgeRun t file fs).1 file (purgeRun t file fs).2.1).2.2 = 1 ∧
      (purgeRun (purgeRun t file fs).1 file (purgeRun t file fs).2.1).2.1.canonical = none := by
  intro t file fs h
  simp [purgeRun, FileLocker.lock, FileLocker.unlock, h, tset]

/-- Witness for C8 at a concrete lock table, file and directory state. -/
theorem purge_always_succeeds_witness :
    (purgeRun (fun _ => none) "f" { canonical := some 3, partFile := none }).2.2 = 1 ∧
    (purgeRun (fun _ => none) "f" { canonical := some 3, partFile := none }).2.1.canonical
      = none ∧
    (purgeRun (fun _ => none) "f" { canonical := some 3, partFile := none }).1 "f" = none ∧
    (purgeRun (purgeRun (fun _ => none) "f" { canonical := some 3, partFile := none }).1 "f"
      (purgeRun (fun _ => none) "f" { canonical := some 3, partFile := none }).2.1).2.2 = 1 ∧
    (purgeRun (purgeRun (fun _ => none) "f" { canonical := some 3, partFile := none }).1 "f"
      (purgeRun (fun _ => none) "f" { canonical := some 3, partFile := none }).2.1).2.1.canonical
      = none :=
  purge_always_succeeds (fun _ => none) "f" { canonical := some 3, partFile := none } rfl

/-- Claim C9 (code bug): when the response-timeout timer fires (first `done`,
code 504) and the aborted response afterwards emits `error` (whose handler is
`onError`, with no once-guard anywhere), the fetcher's callback is delivered
twice — the source violates the exactly-once contract in exactly the named
scenario. -/
theorem double_callback_on_timeout_then_error :
    (runUpstream [] 100
      [UpEvt.gotRes 200 none, UpEvt.timerFire, UpEvt.resError]).doneCalls = 2 := by
  decide

/-- Claim C10: on a filesystem hit and on upstream success the lock is
released before the caller's callback runs; on upstream failure the callback
runs first and the lock release — and with it the synchronous start of the
next FIFO waiter — comes after it. -/
theorem unlock_callback_order :
    (∀ w, evtIdx FetchEvt.unlockEvt (fsHitTrace w) < evtIdx FetchEvt.doneOkEvt (fsHitTrace w)) ∧
    (∀ w, evtIdx FetchEvt.unlockEvt (upOkTrace w) < evtIdx FetchEvt.doneOkEvt (upOkTrace w)) ∧
    (∀ w, evtIdx FetchEvt.doneErrEvt (upErrTrace w) < evtIdx FetchEvt.unlockEvt (upErrTrace w)) ∧
    (evtIdx FetchEvt.doneErrEvt (upErrTrace true) <
      evtIdx FetchEvt.waiterStartEvt (upErrTrace true)) := by
  refine ⟨?_, ?_, ?_, by decide⟩ <;> exact fun w => by cases w <;> decide

/-- Claim C5: the filesystem probe reports a hit with the statted
`(atime, mtime)` iff the path is a regular file of positive size whose mtime
is strictly in the future; on `ENOENT` it attempts the shard mkdir (logging
only for a non-`EEXIST` mkdir error) and reports a miss; on any other stat
error it logs and reports a miss — `ProbeResult` has no error constructor,
so no stat error is ever surfaced — and in every other case it reports a
miss. -/
theorem filesystem_probe_characterization :
    (∀ isFile size a m mk now,
      fetchFromFilesystem (StatOutcome.statOk isFile size a m) mk now =
          ProbeResult.hit a m ↔ isFile = true ∧ 0 < size ∧ now < m) ∧
    (∀ mk now, fetchFromFilesystem (StatOutcome.statErr "ENOENT") mk now =
      ProbeResult.missMkdir (match mk with
        | some e => decide (e ≠ "EEXIST")
        | none => false)) ∧
    (fetchFromFilesystem (StatOutcome.statErr "ENOENT") (some "EEXIST") 0 =
      ProbeResult.missMkdir false) ∧
    (fetchFromFilesystem (StatOutcome.statErr "ENOENT") none 0 =
      ProbeResult.missMkdir false) ∧
    (∀ c mk now, c ≠ "ENOENT" →
      fetchFromFilesystem (StatOutcome.statErr c) mk now = ProbeResult.missStatErr) ∧
    (∀ isFile size a m mk now, ¬(isFile = true ∧ 0 < size ∧ now < m) →
      fetchFromFilesystem (StatOutcome.statOk isFile size a m) mk now =
        ProbeResult.missStale) := by
  refine ⟨?_, ?_, by decide, by decide, ?_, ?_⟩
  · intro isFile size a m mk now
    by_cases hcond : isFile = true ∧ 0 < size ∧ now < m
    · simp [fetchFromFilesystem, hcond]
    · simp [fetchFromFilesystem, hcond]
  · intro mk now
    simp [fetchFromFilesystem]
  · intro c mk now hc
    simp [fetchFromFilesystem, hc]
  · intro isFile size a m mk now hcond
    simp [fetchFromFilesystem, hcond]

/-- Claim C6: every fetch failure carries exactly one numeric code: transport
errors whose code is one of `ECONNREFUSED`, `ETIMEDOUT`, `ESOCKETTIMEDOUT`
get 504 and all other transport errors get 502, with the delivered message
`Upstream {url} failed: {underlying message}`; a non-200 status gets the
status itself as code with message `status code N`; a `Content-Type` outside
a non-empty `mediaTypes` list gets 415 with message
`unsupported media-type X`; exceeding the response timeout gets 504 with
message `response timeout of Nms` (all delivered messages carry the
`Upstream {url} failed: ` prefix that `onError` adds). -/
theorem upstream_error_codes :
    (∀ url msg c,
      (c = some "ECONNREFUSED" ∨ c = some "ETIMEDOUT" ∨ c = some "ESOCKETTIMEDOUT") →
      transportErr url c msg = { code := 504, msg := wrapMsg url msg }) ∧
    (∀ url msg c,
      (∀ s, c = some s →
        s ≠ "ECONNREFUSED" ∧ s ≠ "ETIMEDOUT" ∧ s ≠ "ESOCKETTIMEDOUT") →
      transportErr url c msg = { code := 502, msg := wrapMsg url msg }) ∧
    (∀ mt url status ct, status ≠ 200 →
      headersCheck mt url status ct =
        some { code := status, msg := wrapMsg url ("status code " ++ toString status) }) ∧
    (∀ mt url ct, mt ≠ [] → (∀ x, ct = some x → x ∉ mt) →
      headersCheck mt url 200 ct =
        some { code := 415,
               msg := wrapMsg url ("unsupported media-type " ++ renderCt ct) }) ∧
    (∀ url rt, timeoutErr url rt =
      { code := 504, msg := wrapMsg url ("response timeout of " ++ toString rt ++ "ms") }) := by
  refine ⟨?_, ?_, ?_, ?_, fun url rt => rfl⟩
  · intro url msg c hc
    rcases hc with h | h | h <;> subst h <;> simp [transportErr, transportCode]
  · intro url msg c hc
    cases c with
    | none => rfl
    | some s =>
      obtain ⟨h1, h2, h3⟩ := hc s rfl
      simp [transportErr, transportCode, h1, h2, h3]
  · intro mt url status ct hstatus
    simp [headersCheck, hstatus]
  · intro mt url ct hmt hct
    have hallow : ctypeAllowed mt ct = false := by
      cases ct with
      | none =>
        simp [ctypeAllowed, List.isEmpty_iff, hmt]
      | some x =>
        have hx : x ∉ mt := hct x rfl
        simp [ctypeAllowed, List.isEmpty_iff, hmt, hx]
    simp [headersCheck, hallow]

/-! ## FileLocker replay lemmas (claim C2) -/

theorem lockInv_step (k : String) (s : ExecSt) (op : LockOp) (h : LockInv k s) :
    LockInv k (execOp k s op) := by
  cases op with
  | lockOp pid =>
    cases ht : s.table k with
    | none =>
      simp only [LockInv, ht] at h
      simp [LockInv, execOp, FileLocker.lock, ht, tset, h]
    | some e =>
      simp only [LockInv, ht] at h
      simp [LockInv, execOp, FileLocker.lock, ht, tset, h]
  | unlockOp =>
    cases ht : s.table k with
    | none =>
      simp only [LockInv, ht] at h
      simp [LockInv, execOp, FileLocker.unlock, ht, tset, h]
    | some e =>
      simp only [LockInv, ht] at h
      cases e with
      | mk lastUpdated rel =>
        cases rel with
        | nil =>
          simp [LockInv, execOp, FileLocker.unlock, ht, tset, h]
        | cons p rest =>
          simp [LockInv, execOp, FileLocker.unlock, ht, tset, h]

theorem lockInv_run (k : String) (ops : List LockOp) :
    ∀ s : ExecSt, LockInv k s → LockInv k (ops.foldl (execOp k) s) := by
  induction ops with
  | nil => intro s h; exact h
  | cons op rest ih =>
    intro s h
    exact ih (execOp k s op) (lockInv_step k s op h)

theorem hits_spurious_step (k : String) (s : ExecSt) (op : LockOp) :
    (execOp k s op).hits + (execOp k s op).spurious =
      s.hits + s.spurious + (if op = LockOp.unlockOp then 1 else 0) := by
  cases op with
  | lockOp pid =>
    simp [execOp]
  | unlockOp =>
    cases ht : s.table k with
    | none => simp [execOp, ht]; omega
    | some e => simp [execOp, ht]; omega

theorem hits_spurious_run (k : String) (ops : List LockOp) :
    ∀ s : ExecSt,
      (ops.foldl (execOp k) s).hits + (ops.foldl (execOp k) s).spurious =
        s.hits + s.spurious + countUnlocks ops := by
  induction ops with
  | nil => intro s; simp [countUnlocks]
  | cons op rest ih =>
    intro s
    have hstep := hits_spurious_step k s op
    have hrest := ih (execOp k s op)
    simp only [List.foldl_cons] at *
    rw [hrest, hstep]
    simp only [countUnlocks, List.countP_cons]
    cases op with
    | lockOp pid => simp
    | unlockOp => simp; omega

/-- Claim C2: for every key and every `lock`/`unlock` call sequence in which
unlocks balance the `proceed` callbacks that ran (every unlock found an
entry, and the number of unlocks equals the number of started callbacks),
the lock table holds no entry for the key at the end: the first lock creates
the entry and runs its `proceed`, and each unlock either transfers ownership
to the FIFO head waiter or deletes the entry when no waiter remains. -/
theorem locker_balanced_sequence_empty (k : String) (ops : List LockOp)
    (hspur : (execOps k ops).spurious = 0)
    (hbal : countUnlocks ops = (execOps k ops).started) :
    (execOps k ops).table k = none := by
  have hinv : LockInv k (execOps k ops) := by
    apply lockInv_run
    simp [LockInv]
  have hcount : (execOps k ops).hits + (execOps k ops).spurious = countUnlocks ops := by
    have h0 := hits_spurious_run k ops
      { table := fun _ => none, started := 0, hits := 0, spurious := 0 }
    simpa [execOps] using h0
  cases ht : (execOps k ops).table k with
  | none => rfl
  | some e =>
    exfalso
    simp only [LockInv, ht] at hinv
    omega

/-- Witness for C2: two lock calls followed by two unlock calls on one key
leave the table without an entry for that key. -/
theorem locker_balanced_sequence_empty_witness :
    (execOps "f" [LockOp.lockOp 1, LockOp.lockOp 2, LockOp.unlockOp,
      LockOp.unlockOp]).table "f" = none :=
  locker_balanced_sequence_empty "f"
    [LockOp.lockOp 1, LockOp.lockOp 2, LockOp.unlockOp, LockOp.unlockOp]
    (by decide) (by decide)

/-! ## Fetch orchestration lemmas (claim C1) -/

theorem finish_fresh {n : Nat} (s : FetchSt n) (i : Fin n) (fr : Bool) :
    (finish s i fr).fresh = fr := by
  unfold finish
  cases s.queue <;> rfl

theorem finish_ph_fetching {n : Nat} (s : FetchSt n) (i : Fin n) (fr : Bool) (j : Fin n)
    (hj : (finish s i fr).ph j = Phase.fetching) : s.ph j = Phase.fetching := by
  cases hq : s.queue with
  | nil =>
    simp only [finish, hq] at hj
    by_cases hji : j = i
    · subst hji; rw [updPh_self] at hj; exact Phase.noConfusion hj
    · rwa [updPh_ne _ _ _ _ hji] at hj
  | cons w rest =>
    simp only [finish, hq] at hj
    by_cases hjw : j = w
    · subst hjw; rw [updPh_self] at hj; exact Phase.noConfusion hj
    · rw [updPh_ne _ _ _ _ hjw] at hj
      by_cases hji : j = i
      · subst hji; rw [updPh_self] at hj; exact Phase.noConfusion hj
      · rwa [updPh_ne _ _ _ _ hji] at hj

theorem finish_inv {n : Nat} (s : FetchSt n) (i : Fin n) (fr : Bool)
    (hInv : FetchInv s) (hhold : s.holder = some i)
    (hph : s.ph i = Phase.probing ∨ s.ph i = Phase.fetching) :
    FetchInv (finish s i fr) := by
  obtain ⟨h1, h2, h3, h4⟩ := hInv
  cases hq : s.queue with
  | nil =>
    refine ⟨?_, ?_, ?_, ?_⟩
    · intro j hj
      exfalso
      simp only [finish, hq] at hj
      by_cases hji : j = i
      · subst hji; rw [updPh_self] at hj
        rcases hj with h | h <;> exact Phase.noConfusion h
      · rw [updPh_ne _ _ _ _ hji] at hj
        have hsome := h1 j hj
        rw [hhold] at hsome
        exact hji (Option.some.inj hsome).symm
    · intro j hj
      simp only [finish, hq] at hj
      exact absurd hj (List.not_mem_nil j)
    · simp only [finish, hq]
      exact List.nodup_nil
    · intro j hj
      simp only [finish, hq] at hj
      exact Option.noConfusion hj
  | cons w rest =>
    have hwq : w ∈ s.queue := by rw [hq]; exact List.mem_cons_self w rest
    have hwph : s.ph w = Phase.waiting := h2 w hwq
    have hwi : w ≠ i := by
      intro e
      rcases hph with h | h <;>
        exact Phase.noConfusion ((hwph.symm.trans (e ▸ h)).symm)
    refine ⟨?_, ?_, ?_, ?_⟩
    · intro j hj
      simp only [finish, hq] at hj ⊢
      by_cases hjw : j = w
      · subst hjw; rfl
      · exfalso
        rw [updPh_ne _ _ _ _ hjw] at hj
        by_cases hji : j = i
        · subst hji; rw [updPh_self] at hj
          rcases hj with h | h <;> exact Phase.noConfusion h
        · rw [updPh_ne _ _ _ _ hji] at hj
          have hsome := h1 j hj
          rw [hhold] at hsome
          exact hji (Option.some.inj hsome).symm
    · intro j hj
      simp only [finish, hq] at hj ⊢
      have hjq : j ∈ s.queue := by rw [hq]; exact List.mem_cons_of_mem w hj
      have hjph := h2 j hjq
      have hjw : j ≠ w := by
        intro e; subst e
        have hnd := h3
        rw [hq] at hnd
        exact (List.nodup_cons.mp hnd).1 hj
      have hji : j ≠ i := by
        intro e; subst e
        rcases hph with h | h <;> exact Phase.noConfusion (hjph.symm.trans h)
      rw [updPh_ne _ _ _ _ hjw, updPh_ne _ _ _ _ hji]
      exact hjph
    · simp only [finish, hq]
      have hnd := h3
      rw [hq] at hnd
      exact (List.nodup_cons.mp hnd).2
    · intro j hj
      simp only [finish, hq] at hj ⊢
      have hjw : j = w := (Option.some.inj hj).symm
      subst hjw
      left
      exact updPh_self _ _ _

theorem fetchStep_inv {n : Nat} {s t : FetchSt n} (hstep : FetchStep s t)
    (hInv : FetchInv s) : FetchInv t := by
  obtain ⟨h1, h2, h3, h4⟩ := hInv
  cases hstep with
  | lockAcquire i hidle hnone =>
    refine ⟨?_, ?_, ?_, ?_⟩
    · intro j hj
      dsimp only at hj ⊢
      by_cases hji : j = i
      · subst hji; rfl
      · exfalso
        rw [updPh_ne _ _ _ _ hji] at hj
        have hsome := h1 j hj
        rw [hnone] at hsome
        exact Option.noConfusion hsome
    · intro j hj
      dsimp only at hj ⊢
      have hji : j ≠ i := by
        intro e; subst e
        exact Phase.noConfusion ((h2 j hj).symm.trans hidle)
      rw [updPh_ne _ _ _ _ hji]
      exact h2 j hj
    · exact h3
    · intro j hj
      dsimp only at hj ⊢
      have hji : j = i := (Option.some.inj hj).symm
      subst hji
      left
      exact updPh_self _ _ _
  | lockEnqueue i h hidle hsome =>
    refine ⟨?_, ?_, ?_, ?_⟩
    · intro j hj
      dsimp only at hj ⊢
      by_cases hji : j = i
      · subst hji; rw [updPh_self] at hj
        rcases hj with hh | hh <;> exact Phase.noConfusion hh
      · rw [updPh_ne _ _ _ _ hji] at hj
        exact h1 j hj
    · intro j hj
      dsimp only at hj ⊢
      rcases List.mem_append.mp hj with hjq | hji
      · have hji : j ≠ i := by
          intro e; subst e
          exact Phase.noConfusion ((h2 j hjq).symm.trans hidle)
        rw [updPh_ne _ _ _ _ hji]
        exact h2 j hjq
      · have hji2 : j = i := by simpa using hji
        subst hji2
        exact updPh_self _ _ _
    · dsimp only
      have hni : i ∉ s.queue := fun hin =>
        Phase.noConfusion ((h2 i hin).symm.trans hidle)
      refine List.nodup_append.mpr ⟨h3, List.nodup_singleton i, ?_⟩
      intro a ha hb
      rw [List.mem_singleton] at hb
      subst hb
      exact hni ha
    · intro j hj
      dsimp only at hj ⊢
      have hphj := h4 j hj
      have hji : j ≠ i := by
        intro e; subst e
        rcases hphj with hh | hh <;> exact Phase.noConfusion (hidle.symm.trans hh)
      rw [updPh_ne _ _ _ _ hji]
      exact hphj
  | probeHit i hhold hprob hfresh =>
    exact finish_inv s i s.fresh ⟨h1, h2, h3, h4⟩ hhold (Or.inl hprob)
  | probeMiss i hhold hprob hfresh =>
    refine ⟨?_, ?_, ?_, ?_⟩
    · intro j hj
      dsimp only at hj ⊢
      by_cases hji : j = i
      · subst hji; exact hhold
      · rw [updPh_ne _ _ _ _ hji] at hj
        exact h1 j hj
    · intro j hj
      dsimp only at hj ⊢
      have hji : j ≠ i := by
        intro e; subst e
        exact Phase.noConfusion ((h2 j hj).symm.trans hprob)
      rw [updPh_ne _ _ _ _ hji]
      exact h2 j hj
    · exact h3
    · intro j hj
      dsimp only at hj ⊢
      rw [hhold] at hj
      have hji : j = i := (Option.some.inj hj).symm
      subst hji
      right
      exact updPh_self _ _ _
  | upstreamOk i hhold hfetch =>
    exact finish_inv s i true ⟨h1, h2, h3, h4⟩ hhold (Or.inr hfetch)
  | upstreamFail i hhold hfetch =>
    exact finish_inv s i s.fresh ⟨h1, h2, h3, h4⟩ hhold (Or.inr hfetch)

theorem reach_inv {n : Nat} {fresh0 : Bool} {s : FetchSt n}
    (hr : Relation.ReflTransGen FetchStep (initSt n fresh0) s) : FetchInv s := by
  induction hr with
  | refl =>
    refine ⟨?_, ?_, ?_, ?_⟩
    · intro i hi
      rcases hi with h | h <;> exact Phase.noConfusion h
    · intro i hi
      exact absurd hi (List.not_mem_nil i)
    · exact List.nodup_nil
    · intro i hi
      exact Option.noConfusion hi
  | tail hab hbc ih =>
    exact fetchStep_inv hbc ih

theorem step_fresh {n : Nat} {s t : FetchSt n} (hstep : FetchStep s t)
    (hfresh : s.fresh = true) :
    t.fresh = true ∧ ∀ i, t.ph i = Phase.fetching → s.ph i = Phase.fetching := by
  cases hstep with
  | lockAcquire i hidle hnone =>
    refine ⟨hfresh, ?_⟩
    intro j hj
    dsimp only at hj
    by_cases hji : j = i
    · subst hji; rw [updPh_self] at hj; exact Phase.noConfusion hj
    · rwa [updPh_ne _ _ _ _ hji] at hj
  | lockEnqueue i h hidle hsome =>
    refine ⟨hfresh, ?_⟩
    intro j hj
    dsimp only at hj
    by_cases hji : j = i
    · subst hji; rw [updPh_self] at hj; exact Phase.noConfusion hj
    · rwa [updPh_ne _ _ _ _ hji] at hj
  | probeHit i hhold hprob hf =>
    refine ⟨by rw [finish_fresh]; exact hfresh, ?_⟩
    intro j hj
    exact finish_ph_fetching s i s.fresh j hj
  | probeMiss i hhold hprob hf =>
    exact absurd (hfresh.symm.trans hf) (by simp)
  | upstreamOk i hhold hfetch =>
    refine ⟨by rw [finish_fresh], ?_⟩
    intro j hj
    exact finish_ph_fetching s i true j hj
  | upstreamFail i hhold hfetch =>
    refine ⟨by rw [finish_fresh]; exact hfresh, ?_⟩
    intro j hj
    exact finish_ph_fetching s i s.fresh j hj

/-- Claim C1: single-flight per cache key.  In every state reachable from an
initial state, at most one process is performing an upstream fetch (the lock
holder), and once the canonical file is fresh — in particular after any
holder completes a successful upstream fetch — no process that is not
already fetching ever starts an upstream fetch: a waiter acquiring the lock
afterwards observes the filesystem hit. -/
theorem fetch_single_flight {n : Nat} (fresh0 : Bool) (s : FetchSt n)
    (hr : Relation.ReflTransGen FetchStep (initSt n fresh0) s) :
    (∀ i j, s.ph i = Phase.fetching → s.ph j = Phase.fetching → i = j) ∧
    (s.fresh = true → ∀ t, Relation.ReflTransGen FetchStep s t →
      ∀ i, t.ph i = Phase.fetching → s.ph i = Phase.fetching) := by
  constructor
  · have hinv := reach_inv hr
    intro i j hi hj
    have hsi := hinv.1 i (Or.inr hi)
    have hsj := hinv.1 j (Or.inr hj)
    exact Option.some.inj (hsi.symm.trans hsj)
  · intro hfresh t hrt
    have key : t.fresh = true ∧
        (∀ i, t.ph i = Phase.fetching → s.ph i = Phase.fetching) := by
      induction hrt with
      | refl => exact ⟨hfresh, fun i hh => hh⟩
      | tail hab hbc ih =>
        obtain ⟨hfb, hback⟩ := ih
        have hstep := step_fresh hbc hfb
        exact ⟨hstep.1, fun i hh => hback i (hstep.2 i hh)⟩
    exact key.2

/-- Witness for C1 at a concrete reachable two-process state in which
process 0 holds the lock and is fetching upstream. -/
theorem fetch_single_flight_witness :
    (∀ i j, exampleFetchSt.ph i = Phase.fetching →
      exampleFetchSt.ph j = Phase.fetching → i = j) ∧
    (exampleFetchSt.fresh = true → ∀ t, Relation.ReflTransGen FetchStep exampleFetchSt t →
      ∀ i, t.ph i = Phase.fetching → exampleFetchSt.ph i = Phase.fetching) :=
  fetch_single_flight false exampleFetchSt
    (Relation.ReflTransGen.tail
      (Relation.ReflTransGen.single
        (FetchStep.lockAcquire (initSt 2 false) 0 rfl rfl))
      (FetchStep.probeMiss exampleFetchMid 0 rfl rfl rfl))

/-! ## TTL parser lemmas (claim C3) -/

theorem matchNumAt_nil (pat : List Char) : matchNumAt pat [] = none := by
  cases pat with
  | nil => simp [matchNumAt, takeDigits, List.isPrefixOf]
  | cons c cs => simp [matchNumAt, List.isPrefixOf]

theorem containsSub_iff (pat s : List Char) :
    containsSub pat s = true ↔ pat <:+: s := by
  induction s with
  | nil =>
    simp [containsSub, List.isEmpty_iff, List.infix_nil]
  | cons c rest ih =>
    simp [containsSub, Bool.or_eq_true, ih, List.infix_cons_iff,
      List.isPrefixOf_iff_prefix]

theorem findNum_eq_none_iff (pat s : List Char) :
    findNum pat s = none ↔ ∀ i, matchNumAt pat (s.drop i) = none := by
  induction s with
  | nil =>
    constructor
    · intro _ i
      rw [List.drop_nil]
      exact matchNumAt_nil pat
    · intro _
      rfl
  | cons c rest ih =>
    cases h : matchNumAt pat (c :: rest) with
    | some m =>
      have hf : findNum pat (c :: rest) = some m := by
        simp only [findNum, h]
      constructor
      · intro hcontra
        rw [hf] at hcontra
        exact absurd hcontra (by simp)
      · intro hall
        have h0 := hall 0
        rw [List.drop_zero] at h0
        rw [h0] at h
        exact absurd h (by simp)
    | none =>
      have hf : findNum pat (c :: rest) = findNum pat rest := by
        simp only [findNum, h]
      rw [hf, ih]
      constructor
      · intro hall i
        cases i with
        | zero => simpa using h
        | succ k => simpa using hall k
      · intro hall i
        have hk := hall (i + 1)
        simpa using hk

theorem findNum_eq_some_iff (pat s : List Char) (n : Nat) :
    findNum pat s = some n ↔ FirstDirective pat s n := by
  induction s with
  | nil =>
    constructor
    · intro hcontra
      exact absurd hcontra (by simp [findNum])
    · rintro ⟨i, hi, -⟩
      rw [List.drop_nil, matchNumAt_nil] at hi
      exact absurd hi (by simp)
  | cons c rest ih =>
    cases h : matchNumAt pat (c :: rest) with
    | some m =>
      have hf : findNum pat (c :: rest) = some m := by
        simp only [findNum, h]
      rw [hf]
      constructor
      · intro hm
        refine ⟨0, ?_, ?_⟩
        · rw [List.drop_zero, h]
          exact hm
        · intro j hj
          exact absurd hj (Nat.not_lt_zero j)
      · rintro ⟨i, hi, hmin⟩
        cases i with
        | zero =>
          rw [List.drop_zero, h] at hi
          exact hi
        | succ k =>
          have h0 := hmin 0 (Nat.succ_pos k)
          rw [List.drop_zero, h] at h0
          exact absurd h0 (by simp)
    | none =>
      have hf : findNum pat (c :: rest) = findNum pat rest := by
        simp only [findNum, h]
      rw [hf, ih]
      constructor
      · rintro ⟨i, hi, hmin⟩
        refine ⟨i + 1, by simpa using hi, ?_⟩
        intro j hj
        cases j with
        | zero => simpa using h
        | succ k =>
          have hk := hmin k (by omega)
          simpa using hk
      · rintro ⟨i, hi, hmin⟩
        cases i with
        | zero =>
          rw [List.drop_zero] at hi
          rw [hi] at h
          exact absurd h (by simp)
        | succ k =>
          refine ⟨k, by simpa using hi, ?_⟩
          intro j hj
          have hk := hmin (j + 1) (by omega)
          simpa using hk

/-- Claim C3: the `Cache-Control` TTL parser returns 0 for a non-string
input and for any string containing `no-cache` or `private` as a substring;
otherwise it returns the integer of the first `s-maxage=N` match when one
exists (`s-maxage` taking precedence over `max-age`), else the integer of
the first `max-age=N` match when one exists, else 0; the result is a `Nat`,
hence always a non-negative integer. -/
theorem cache_control_ttl_characterization :
    (ttlFromCacheControlHeader none = 0) ∧
    (∀ s, (noCachePat <:+: s ∨ privatePat <:+: s) →
      ttlFromCacheControlHeader (some s) = 0) ∧
    (∀ s n, ¬ (noCachePat <:+: s) → ¬ (privatePat <:+: s) →
      FirstDirective smaxagePat s n → ttlFromCacheControlHeader (some s) = n) ∧
    (∀ s n, ¬ (noCachePat <:+: s) → ¬ (privatePat <:+: s) →
      NoDirective smaxagePat s → FirstDirective maxagePat s n →
      ttlFromCacheControlHeader (some s) = n) ∧
    (∀ s, ¬ (noCachePat <:+: s) → ¬ (privatePat <:+: s) →
      NoDirective smaxagePat s → NoDirective maxagePat s →
      ttlFromCacheControlHeader (some s) = 0) := by
  have hfalse : ∀ pat s, ¬ (pat <:+: s) → containsSub pat s = false := by
    intro pat s hn
    cases hc : containsSub pat s with
    | false => rfl
    | true => exact absurd ((containsSub_iff pat s).mp hc) hn
  refine ⟨rfl, ?_, ?_, ?_, ?_⟩
  · intro s hs
    rcases hs with h | h
    · simp [ttlFromCacheControlHeader, (containsSub_iff noCachePat s).mpr h]
    · simp [ttlFromCacheControlHeader, (containsSub_iff privatePat s).mpr h]
  · intro s n hnc hpr hfirst
    have hs := (findNum_eq_some_iff smaxagePat s n).mpr hfirst
    simp [ttlFromCacheControlHeader, hfalse _ _ hnc, hfalse _ _ hpr, hs]
  · intro s n hnc hpr hnone hfirst
    have hs := (findNum_eq_none_iff smaxagePat s).mpr hnone
    have hm := (findNum_eq_some_iff maxagePat s n).mpr hfirst
    simp [ttlFromCacheControlHeader, hfalse _ _ hnc, hfalse _ _ hpr, hs, hm]
  · intro s hnc hpr hs0 hm0
    have hs := (findNum_eq_none_iff smaxagePat s).mpr hs0
    have hm := (findNum_eq_none_iff maxagePat s).mpr hm0
    simp [ttlFromCacheControlHeader, hfalse _ _ hnc, hfalse _ _ hpr, hs, hm]
